import Mathlib

/- Verification of the GNO/FNOGNO core of the neuraloperator library:
   neighbor search, segmented reduction, kernel integral transform,
   incremental spectral modes, domain padding, and FNOGNO construction
   bookkeeping. -/

/-- The four kernel integral transform variants selectable at construction
(gno_block.py / integral_transform). -/
inductive TransformType
  | linear_kernelonly
  | linear
  | nonlinear_kernelonly
  | nonlinear
deriving DecidableEq

/-- Kernel input channel width computed by GNOBlock at construction
(gno_block.py lines 104-108): 2 * coord_dim, plus in_channels exactly for
the nonlinear variants. -/
def gnoKernelInDim (coordDim inChannels : Nat) (t : TransformType) : Nat :=
  2 * coordDim +
    (match t with
     | .nonlinear | .nonlinear_kernelonly => inChannels
     | _ => 0)

/-- GNOBlock validation of a user-supplied kernel MLP (gno_block.py lines
109-112): the assert accepts the MLP exactly when its input width equals the
computed kernel input width. -/
def gnoBlockAcceptsChannelMLP (coordDim inChannels : Nat) (t : TransformType)
    (mlpInChannels : Nat) : Bool :=
  mlpInChannels == gnoKernelInDim coordDim inChannels t

/-- Kernel input channel width computed by FNOGNO at construction
(fnogno.py lines 245-246): fno_hidden_channels is added whenever the
transform type differs from "linear". -/
def fnognoKernelInDim (coordDimEmbed fnoHidden : Nat) (t : TransformType) : Nat :=
  2 * coordDimEmbed + (if t = TransformType.linear then 0 else fnoHidden)

/-- The width the specification prescribes for the kernel network input:
2 * coord_dim, plus in_channels exactly when the transform type is a
nonlinear variant. -/
def specKernelInDim (coordDim inChannels : Nat) (t : TransformType) : Nat :=
  2 * coordDim +
    (if t = TransformType.nonlinear ∨ t = TransformType.nonlinear_kernelonly
     then inChannels else 0)

/-- GNOBlock construction check (gno_block.py lines 96-98): with the open3d
neighbor search selected, an assert demands coord_dim = 3. Returns true
exactly when construction succeeds. -/
def gnoBlockInitOk (coordDim : Nat) (useOpen3d : Bool) : Bool :=
  !useOpen3d || (coordDim == 3)

/-- FNOGNO construction behaviour for the open3d dimension check (fnogno.py
lines 159-163 and 235): a mismatch only prints a warning and construction
always proceeds. Returns (warningEmitted, constructionSucceeds). -/
def fnognoInitOpen3d (gnoCoordDim : Nat) (gnoUseOpen3d : Bool) : Bool × Bool :=
  (decide (gnoCoordDim ≠ 3) && gnoUseOpen3d, true)

/-- Module-level default for gno_channel_mixing_hidden_layers (fnogno.py line
121): a single list value shared by every FNOGNO construction that does not
pass its own list. -/
def defaultGnoChannelMixingHiddenLayers : List Nat := [512, 256]

/-- The in-place update FNOGNO performs on the supplied hidden-layers list
(fnogno.py lines 248-249): insert kernel_in_dim at position 0 and append
fno_hidden_channels. The returned list is the value the caller binding
holds after construction. -/
def fnognoExtendLayers (kernelInDim fnoHidden : Nat) (layers : List Nat) : List Nat :=
  kernelInDim :: (layers ++ [fnoHidden])

/-- Squared Euclidean distance between two coordinate vectors. -/
def sqDist (p q : List Int) : Int :=
  ((List.zipWith (fun a b => a - b) p q).map (fun d => d * d)).sum

/-- Modelled from the spec: the brute-force neighbor-search strategy
(neuralop/layers/neighbor_search.py is not under src). For one query point,
return in index order the data indices within the radius, inclusive
boundary, compared on squared distances. -/
def nbrRow (yPts : List (List Int)) (xq : List Int) (r2 : Int) : List Nat :=
  (List.range yPts.length).filter (fun j => decide (sqDist xq (yPts.getD j []) ≤ r2))

/-- Modelled from the spec: brute-force strategy over all query points,
rows grouped by query index. -/
def searchBruteForce (yPts xPts : List (List Int)) (r2 : Int) : List (List Nat) :=
  xPts.map (fun xq => nbrRow yPts xq r2)

/-- Per-axis bound test with which the spatial-index strategy prunes
candidates: a data point survives only if every coordinate difference is
already within the radius. -/
def boxNear (xq yj : List Int) (r2 : Int) : Bool :=
  (List.zipWith (fun a b => a - b) xq yj).all (fun d => decide (d * d ≤ r2))

/-- Modelled from the spec: the accelerated spatial-index strategy
(neighbor_search.py is not under src). Candidate data indices are first
pruned through the per-axis spatial bound kept by the index, then checked
exactly with the same inclusive radius semantics. -/
def nbrRowIndexed (yPts : List (List Int)) (xq : List Int) (r2 : Int) : List Nat :=
  (List.range yPts.length).filter
    (fun j => boxNear xq (yPts.getD j []) r2 && decide (sqDist xq (yPts.getD j []) ≤ r2))

/-- Modelled from the spec: accelerated strategy over all query points. -/
def searchIndexed (yPts xPts : List (List Int)) (r2 : Int) : List (List Nat) :=
  xPts.map (fun xq => nbrRowIndexed yPts xq r2)

/-- CSR row offsets of a grouped edge list: running edge counts starting at
0 (the neighbors_row_splits entry of the neighbor dict). -/
def csrOffsets (rows : List (List Nat)) : List Nat :=
  rows.scanl (fun acc row => acc + row.length) 0

/-- The C1 property: both strategies return identical rows; the rows realise
exactly the inclusive-boundary radius relation; and the CSR offsets start at
0, end at the total edge count, and never decrease. -/
def NeighborSearchSpec (yPts xPts : List (List Int)) (r2 : Int) : Prop :=
  searchIndexed yPts xPts r2 = searchBruteForce yPts xPts r2
  ∧ (∀ i j, i < xPts.length →
      (j ∈ (searchBruteForce yPts xPts r2).getD i [] ↔
        j < yPts.length ∧ sqDist (xPts.getD i []) (yPts.getD j []) ≤ r2))
  ∧ (csrOffsets (searchBruteForce yPts xPts r2)).head? = some 0
  ∧ (csrOffsets (searchBruteForce yPts xPts r2)).getLast? =
      some (((searchBruteForce yPts xPts r2).map List.length).sum)
  ∧ List.Chain' (fun m n => m ≤ n) (csrOffsets (searchBruteForce yPts xPts r2))

/-- Modelled from the spec: evaluation of the learned kernel on one edge,
per transform variant (integral_transform.py is not under src). The kernel
takes the query coordinates, the data coordinates and, for the nonlinear
variants, the data feature; variants (b) and (d) multiply the kernel value
by the data feature. Features carry one channel. -/
def kernelEval (t : TransformType) (k : List Int → List Int → Option ℚ → ℚ)
    (xi yj : List Int) (fj : ℚ) : ℚ :=
  match t with
  | .linear_kernelonly => k xi yj none
  | .linear => k xi yj none * fj
  | .nonlinear_kernelonly => k xi yj (some fj)
  | .nonlinear => k xi yj (some fj) * fj

/-- Modelled from the spec: per-edge quadrature weight, defaulting to one
over the neighbor count of the query point when no weights are given. -/
def edgeWeight (w? : Option (List ℚ)) (rowLen : Nat) (j : Nat) : ℚ :=
  match w? with
  | some w => w.getD j 0
  | none => 1 / (rowLen : ℚ)

/-- The transform variant actually computed: when f_y is omitted, variant
(a) is computed regardless of the configured one (documented in
gno_block.py lines 60-61). -/
def effectiveTransformType (t : TransformType) (f? : Option (List ℚ)) : TransformType :=
  match f? with
  | none => .linear_kernelonly
  | some _ => t

/-- Modelled from the spec: the kernel integral transform
(integral_transform.py is not under src). For each query point, sum the
per-edge kernel evaluations over the stored neighbor row, each multiplied
by its quadrature weight. -/
def integralTransform (t : TransformType) (k : List Int → List Int → Option ℚ → ℚ)
    (yPts xPts : List (List Int)) (rows : List (List Nat))
    (f? : Option (List ℚ)) (w? : Option (List ℚ)) : List ℚ :=
  (List.range xPts.length).map (fun i =>
    ((rows.getD i []).map (fun j =>
      kernelEval (effectiveTransformType t f?) k (xPts.getD i []) (yPts.getD j [])
          ((f?.getD []).getD j 0)
        * edgeWeight w? (rows.getD i []).length j)).sum)

/-- GNOBlock.forward (gno_block.py lines 130-169): runs the neighbor search,
then the kernel integral transform. The weights argument is accepted but
never forwarded: lines 164-167 pass only y, x, neighbors and f_y, so the
transform always runs with its default weights. -/
def gnoBlockForward (t : TransformType) (k : List Int → List Int → Option ℚ → ℚ)
    (r2 : Int) (yPts xPts : List (List Int))
    (f? : Option (List ℚ)) (_weightsArg : Option (List ℚ)) : List ℚ :=
  integralTransform t k yPts xPts (searchBruteForce yPts xPts r2) f? none

/-- A concrete kernel returning 1 on every edge, for concrete instances. -/
def constOneKernel : List Int → List Int → Option ℚ → ℚ := fun _ _ _ => 1

/-- The C4 property: with f_y omitted the configured transform type computes
exactly what the kernel-only variant (a) computes, and the output at every
query point is the weighted sum of plain kernel values over its neighbor
row. -/
def KernelOnlyFallbackSpec (t : TransformType)
    (k : List Int → List Int → Option ℚ → ℚ) (yPts xPts : List (List Int))
    (rows : List (List Nat)) (w? : Option (List ℚ)) : Prop :=
  integralTransform t k yPts xPts rows none w? =
    integralTransform TransformType.linear_kernelonly k yPts xPts rows none w?
  ∧ ∀ i, i < xPts.length →
      (integralTransform t k yPts xPts rows none w?)[i]? =
        some (((rows.getD i []).map (fun j =>
          k (xPts.getD i []) (yPts.getD j []) none
            * edgeWeight w? (rows.getD i []).length j)).sum)

/-- Domain padding modes (fno_domain_padding_mode in fnogno.py). -/
inductive PadMode
  | symmetric
  | oneSided
deriving DecidableEq

/-- Modelled from the spec: padding amount for one spatial dimension, given
as a fraction of the extent of that dimension (the DomainPadding module used
at fnogno.py lines 300-307 is not under src). -/
def paddingAmount (frac : ℚ) (n : Nat) : Nat := (frac * n).floor.toNat

/-- Modelled from the spec: zero-pad one spatial dimension before the
Fourier transform, one-sided or symmetric. -/
def padDomain (m : PadMode) (p : Nat) (x : List ℚ) : List ℚ :=
  match m with
  | .oneSided => x ++ List.replicate p 0
  | .symmetric => List.replicate p 0 ++ x ++ List.replicate p 0

/-- Modelled from the spec: remove the padding after the transform by
slicing back to the pre-pad spatial extent. -/
def unpadDomain (m : PadMode) (p : Nat) (y : List ℚ) : List ℚ :=
  match m with
  | .oneSided => y.take (y.length - p)
  | .symmetric => (y.drop p).take (y.length - 2 * p)

/-- Modelled from the spec: bookkeeping of the incremental retained-mode
count of the spectral convolution block (the SpectralConv implementation is
not under src). The weight tensor is allocated for maxModes retained modes;
the first current entries are active. Each spatial dimension evolves
independently by this rule; one dimension is modelled. -/
structure IncrementalModes where
  maxModes : Nat
  current : Nat

/-- Modelled from the spec: the single monotonic "increase modes" operation
exposed to the training loop, clamped at the configured maximum. -/
def increaseModes (s : IncrementalModes) (inc : Nat) : IncrementalModes :=
  IncrementalModes.mk s.maxModes (min (s.current + inc) s.maxModes)

/-- A whole schedule of externally triggered mode increases. -/
def applyIncreases (s : IncrementalModes) (incs : List Nat) : IncrementalModes :=
  incs.foldl increaseModes s

/-- Modelled from the spec: the frequency-domain weight multiplication of
the spectral block restricted to the active modes: output mode m reads
weight entry m exactly when m < current, and unretained high frequencies
are zeroed. -/
def spectralApply (current : Nat) (w xhat : List ℚ) : List ℚ :=
  (List.range xhat.length).map
    (fun m => if m < current then w.getD m 0 * xhat.getD m 0 else 0)

/-- The C6 property: over any schedule the retained-mode count never
decreases and stays clamped at the configured maximum; increasing at the
maximum leaves the count unchanged; and the forward output is independent
of the weight entries at mode indices beyond the active count, so no
gradient can reach them in the backward pass. -/
def IncrementalModesSpec (s : IncrementalModes) (incs : List Nat) : Prop :=
  s.current ≤ (applyIncreases s incs).current
  ∧ (applyIncreases s incs).current ≤ s.maxModes
  ∧ (∀ inc, s.current = s.maxModes → (increaseModes s inc).current = s.current)
  ∧ (∀ cur w xhat m t, cur ≤ m →
      spectralApply cur (w.set m t) xhat = spectralApply cur w xhat)

/-- Componentwise sum of two feature vectors. -/
def vadd (a b : List ℚ) : List ℚ := List.zipWith (fun x y => x + y) a b

/-- The zero feature vector of a given channel width. -/
def vzeros (d : Nat) : List ℚ := List.replicate d 0

/-- Componentwise sum of a list of feature vectors of channel width d. -/
def vsum (d : Nat) (l : List (List ℚ)) : List ℚ := l.foldr vadd (vzeros d)

/-- Scalar multiple of a feature vector. -/
def vscale (c : ℚ) (a : List ℚ) : List ℚ := a.map (fun q => c * q)

/-- The two reduction operations of the segmented reduction. -/
inductive ReduceOp
  | opSum
  | opMean
deriving DecidableEq

/-- The slice values[s:e] of the per-edge value list. -/
def sliceVals (values : List (List ℚ)) (s e : Nat) : List (List ℚ) :=
  (values.drop s).take (e - s)

/-- Modelled from the spec: reduction of one CSR segment
(neuralop/layers/segment_csr.py is not under src; modelled from spec 4.2
and its test). Sum reduces a segment to its componentwise sum, the empty
segment to the zero vector; mean divides the sum by the segment size and
maps the empty segment to zero, not NaN. -/
def reduceSlice (op : ReduceOp) (d : Nat) (seg : List (List ℚ)) : List ℚ :=
  match op with
  | .opSum => vsum d seg
  | .opMean =>
    if seg.length = 0 then vzeros d
    else vscale (1 / (seg.length : ℚ)) (vsum d seg)

/-- Modelled from the spec: the segmented reduction segment_csr over a CSR
row-boundary list: output entry i reduces values[ptr[i] : ptr[i+1]]. -/
def segment_csr (op : ReduceOp) (d : Nat) (values : List (List ℚ))
    (ptr : List Nat) : List (List ℚ) :=
  (ptr.zip ptr.tail).map (fun se => reduceSlice op d (sliceVals values se.1 se.2))

/-- Reverse-mode gradient coefficient of reduced[i] with respect to the edge
entry at position idx, for the segment [s, e): 1 for sum and one over the
segment size for mean when the edge contributes, and 0 otherwise. -/
def gradCoeff (op : ReduceOp) (values : List (List ℚ)) (s e idx : Nat) : ℚ :=
  if s ≤ idx ∧ idx < e ∧ idx < values.length then
    match op with
    | .opSum => 1
    | .opMean => 1 / ((sliceVals values s e).length : ℚ)
  else 0

/-- The C2 property: the reduction has one output per query; entry i is the
chosen reduction of values[ptr[i] : ptr[i+1]]; an empty range reduces to
the zero vector under both operations; and perturbing one edge vector by δ
perturbs each output entry by exactly gradCoeff times δ, which is the
reverse-mode gradient of this linear map: 1 (sum) or 1/count (mean) for a
contributing edge and 0 for a non-contributing one. -/
def SegmentCsrSpec (op : ReduceOp) (d : Nat) (values : List (List ℚ))
    (ptr : List Nat) : Prop :=
  (segment_csr op d values ptr).length = ptr.length - 1
  ∧ (∀ i s e, ptr[i]? = some s → ptr[i + 1]? = some e →
      (segment_csr op d values ptr)[i]? =
        some (reduceSlice op d (sliceVals values s e)))
  ∧ (∀ i s e, ptr[i]? = some s → ptr[i + 1]? = some e → e ≤ s →
      (segment_csr op d values ptr)[i]? = some (vzeros d))
  ∧ (∀ idx δ, idx < values.length → δ.length = d →
      ∀ i s e, ptr[i]? = some s → ptr[i + 1]? = some e →
        (segment_csr op d (values.set idx (vadd (values.getD idx []) δ)) ptr)[i]? =
          some (vadd (reduceSlice op d (sliceVals values s e))
            (vscale (gradCoeff op values s e idx) δ)))

/-- The persistent module state relevant to FNOGNO.forward beyond trained
parameters: the adaptive-normalization embedding stored on the shared FNO
blocks (set through fno.fno_blocks.set_ada_in_embeddings at fnogno.py line
295 and never cleared). -/
structure FnoBlocksState where
  adaEmbed : Option ℚ

/-- fnogno.py lines 288-295: when ada_in is supplied, its embedding is
stored on the shared blocks; when ada_in is None the stored value is left
as it is. -/
def updateAdaIn (st : FnoBlocksState) (ada? : Option ℚ) : FnoBlocksState :=
  match ada? with
  | some a => FnoBlocksState.mk (some a)
  | none => st

/-- Modelled from the spec: the FNO blocks of an ada_in-normalized FNOGNO
condition their normalization on the stored embedding (the FNO block
implementation is not under src); the conditioning shifts the activations
by the stored embedding, 0 when none was ever stored. -/
def fnoBlocksApply (st : FnoBlocksState) (v : ℚ) : ℚ :=
  v + st.adaEmbed.getD 0

/-- FNOGNO.latent_embedding (fnogno.py lines 275-312) restricted to its
ada_in bookkeeping: update the stored embedding, then run the blocks on the
lifted function value; returns the output together with the state the call
leaves behind. -/
def latentEmbeddingAda (st : FnoBlocksState) (f : ℚ) (ada? : Option ℚ) :
    ℚ × FnoBlocksState :=
  (fnoBlocksApply (updateAdaIn st ada?) f, updateAdaIn st ada?)

/-- FNOGNO.forward (fnogno.py lines 382-388): latent embedding followed by
latent integration; the integration step reads no ada_in state, so the
output is determined by the latent value and the state is whatever
latent_embedding left behind. -/
def fnognoForwardAda (st : FnoBlocksState) (f : ℚ) (ada? : Option ℚ) :
    ℚ × FnoBlocksState :=
  latentEmbeddingAda st f ada?

/-- C5: FNOGNO adds fno_hidden_channels to the kernel input width for every
transform type other than "linear", so for transform type linear_kernelonly
with embedded coordinate dimension 3 and 64 hidden channels it computes
width 70, while the prescribed width (which GNOBlock computes, and against
which GNOBlock validates a user-supplied kernel MLP) is 6. -/
theorem fnogno_kernel_width_diverges :
    (∀ cd ic t, gnoKernelInDim cd ic t = specKernelInDim cd ic t)
    ∧ (∀ cd ic t m,
        gnoBlockAcceptsChannelMLP cd ic t m = true ↔ m = specKernelInDim cd ic t)
    ∧ fnognoKernelInDim 3 64 TransformType.linear_kernelonly = 70
    ∧ specKernelInDim 3 64 TransformType.linear_kernelonly = 6
    ∧ fnognoKernelInDim 3 64 TransformType.linear_kernelonly ≠
        gnoKernelInDim 3 64 TransformType.linear_kernelonly := by
  refine ⟨?_, ?_, by decide, by decide, by decide⟩
  · intro cd ic t
    cases t <;> simp [gnoKernelInDim, specKernelInDim]
  · intro cd ic t m
    rw [gnoBlockAcceptsChannelMLP, beq_iff_eq]
    cases t <;> simp [gnoKernelInDim, specKernelInDim]

/-- C9 counterexample: FNOGNO constructed with gno_use_open3d = true and
gno_coord_dim = 2 still constructs successfully (second component true);
only a warning is emitted, contradicting the claim that every construction
path fails fast. -/
theorem fnogno_open3d_mismatch_constructs :
    fnognoInitOpen3d 2 true = (true, true) := by decide

/-- C9 amended: GNOBlock fails fast at construction exactly when the open3d
strategy is selected with coord_dim different from 3, while FNOGNO with the
same mismatch always constructs and only emits a warning. -/
theorem open3d_dim_check_behaviour (d : Nat) (o3d : Bool) :
    (gnoBlockInitOk d o3d = false ↔ (o3d = true ∧ d ≠ 3))
    ∧ (fnognoInitOpen3d d o3d).2 = true
    ∧ ((fnognoInitOpen3d d o3d).1 = true ↔ (o3d = true ∧ d ≠ 3)) := by
  refine ⟨?_, rfl, ?_⟩
  · cases o3d <;> simp [gnoBlockInitOk]
  · cases o3d <;> simp [fnognoInitOpen3d]

/-- C10: FNOGNO extends the hidden-layers list it is given: the resulting
list value is two entries longer, differs from the original, and applying
the construction twice to the same list (as happens with the shared module
default) compounds: with the default list [512, 256], kernel input width 6
and 64 hidden channels, a second construction sees [6, 512, 256, 64] and
builds [6, 6, 512, 256, 64, 64]. -/
theorem fnogno_hidden_layers_mutation (k h : Nat) (L : List Nat) :
    (fnognoExtendLayers k h L).length = L.length + 2
    ∧ fnognoExtendLayers k h L ≠ L
    ∧ fnognoExtendLayers k h (fnognoExtendLayers k h L) = k :: k :: (L ++ [h, h])
    ∧ fnognoExtendLayers 6 64 (fnognoExtendLayers 6 64 defaultGnoChannelMixingHiddenLayers)
        = [6, 6, 512, 256, 64, 64] := by
  refine ⟨by simp [fnognoExtendLayers], ?_, by simp [fnognoExtendLayers], by decide⟩
  intro hEq
  have hLen := congrArg List.length hEq
  simp [fnognoExtendLayers] at hLen
  omega

theorem sq_le_sqDist (xq yj : List Int) (d : Int)
    (hd : d ∈ List.zipWith (fun a b => a - b) xq yj) :
    d * d ≤ sqDist xq yj := by
  unfold sqDist
  refine List.single_le_sum ?_ _ (List.mem_map_of_mem _ hd)
  intro x hx
  rw [List.mem_map] at hx
  obtain ⟨a, _, rfl⟩ := hx
  exact mul_self_nonneg a

theorem boxNear_of_sqDist_le (xq yj : List Int) (r2 : Int)
    (h : sqDist xq yj ≤ r2) : boxNear xq yj r2 = true := by
  rw [boxNear, List.all_eq_true]
  intro d hd
  exact decide_eq_true ((sq_le_sqDist xq yj d hd).trans h)

theorem nbrRowIndexed_eq_nbrRow (yPts : List (List Int)) (xq : List Int) (r2 : Int) :
    nbrRowIndexed yPts xq r2 = nbrRow yPts xq r2 := by
  rw [nbrRowIndexed, nbrRow]
  apply List.filter_congr
  intro j _
  by_cases h : sqDist xq (yPts.getD j []) ≤ r2
  · rw [boxNear_of_sqDist_le _ _ _ h, Bool.true_and]
  · rw [decide_eq_false h, Bool.and_false]

theorem mem_nbrRow (yPts : List (List Int)) (xq : List Int) (r2 : Int) (j : Nat) :
    j ∈ nbrRow yPts xq r2 ↔ j < yPts.length ∧ sqDist xq (yPts.getD j []) ≤ r2 := by
  simp [nbrRow, List.mem_filter]

theorem scanl_head? {α β : Type} (f : α → β → α) (a : α) (l : List β) :
    (List.scanl f a l).head? = some a := by
  cases l <;> simp [List.scanl_nil, List.scanl_cons]

theorem scanl_ne_nil {α β : Type} (f : α → β → α) (a : α) (l : List β) :
    List.scanl f a l ≠ [] := by
  cases l <;> simp [List.scanl_nil, List.scanl_cons]

theorem csrScan_chain (a : Nat) (rows : List (List Nat)) :
    List.Chain' (fun m n => m ≤ n)
      (List.scanl (fun acc row => acc + row.length) a rows) := by
  induction rows generalizing a with
  | nil => simp [List.scanl_nil]
  | cons row rows ih =>
    rw [List.scanl_cons, List.singleton_append, List.chain'_cons']
    refine ⟨?_, ih _⟩
    intro b hb
    rw [scanl_head?] at hb
    simp only [Option.mem_def, Option.some_inj] at hb
    omega

theorem csrScan_last (a : Nat) (rows : List (List Nat)) :
    (List.scanl (fun acc row => acc + row.length) a rows).getLast? =
      some (a + (rows.map List.length).sum) := by
  induction rows generalizing a with
  | nil => simp [List.scanl_nil]
  | cons row rows ih =>
    rw [List.scanl_cons, List.singleton_append]
    rcases hs : List.scanl (fun acc row => acc + row.length) (a + row.length) rows with
      _ | ⟨b, t⟩
    · exact absurd hs (scanl_ne_nil _ _ _)
    · have h2 := ih (a + row.length)
      rw [hs] at h2
      rw [hs, List.getLast?_cons_cons, h2]
      simp only [List.map_cons, List.sum_cons, Option.some_inj]
      omega

/-- C1: for every pair of point sets and positive squared radius, the
spatial-index strategy and the brute-force strategy return identical rows;
the rows realise exactly the relation of query-data pairs within the
radius, inclusive boundary; and the CSR offsets start at 0, end at the
total edge count, and are monotonically non-decreasing. -/
theorem neighbor_search_strategies_agree (yPts xPts : List (List Int)) (r2 : Int)
    (hr : 0 < r2) : NeighborSearchSpec yPts xPts r2 := by
  refine ⟨?_, ?_, scanl_head? _ _ _, ?_, csrScan_chain 0 _⟩
  · unfold searchIndexed searchBruteForce
    apply List.map_congr_left
    intro xq _
    exact nbrRowIndexed_eq_nbrRow yPts xq r2
  · intro i j hi
    have hrow : (searchBruteForce yPts xPts r2).getD i [] =
        nbrRow yPts (xPts.getD i []) r2 := by
      unfold searchBruteForce
      rw [List.getD_eq_getElem?_getD, List.getElem?_map,
        List.getElem?_eq_getElem hi]
      simp only [Option.map_some', Option.getD_some]
      congr 1
      exact (List.getD_eq_getElem xPts [] hi).symm
    rw [hrow]
    exact mem_nbrRow yPts (xPts.getD i []) r2 j
  · unfold csrOffsets
    rw [csrScan_last]
    simp

/-- C1 witness: the property holds at a concrete pair of point sets. -/
theorem neighbor_search_strategies_agree_witness :
    0 < (4 : Int) ∧ NeighborSearchSpec [[0, 0], [3, 0], [1, 1]] [[0, 0], [5, 5]] 4 :=
  ⟨by decide, neighbor_search_strategies_agree _ _ 4 (by decide)⟩

/-- C4: for every configured transform type, calling the kernel integral
transform with f_y omitted computes the kernel-only variant, and in
particular the configured type "linear" without f_y gives exactly the
output of "linear_kernelonly" on the same inputs. The model is total, so
no error is raised. -/
theorem fy_omitted_computes_kernelonly (t : TransformType)
    (k : List Int → List Int → Option ℚ → ℚ) (yPts xPts : List (List Int))
    (rows : List (List Nat)) (w? : Option (List ℚ)) :
    KernelOnlyFallbackSpec t k yPts xPts rows w? := by
  constructor
  · rfl
  · intro i hi
    unfold integralTransform
    rw [List.getElem?_map]
    rw [List.getElem?_range hi]
    simp [kernelEval, effectiveTransformType]

/-- C4 witness: concrete evaluation of the property for configured type
"linear" with a constant kernel. -/
theorem fy_omitted_computes_kernelonly_witness :
    KernelOnlyFallbackSpec TransformType.linear constOneKernel
      [[0], [1]] [[0]] (searchBruteForce [[0], [1]] [[0]] 4) none :=
  fy_omitted_computes_kernelonly TransformType.linear constOneKernel
    [[0], [1]] [[0]] (searchBruteForce [[0], [1]] [[0]] 4) none

/-- C3: GNOBlock.forward drops its weights argument. At a concrete input
the forward output with explicit weights [1, 1] equals the output with
weights omitted, although the integral transform itself distinguishes
these two weight choices on the same neighbor graph and features. -/
theorem gno_forward_ignores_weights :
    gnoBlockForward TransformType.linear constOneKernel 4
        [[0], [1]] [[0]] (some [2, 4]) (some [1, 1])
      = gnoBlockForward TransformType.linear constOneKernel 4
        [[0], [1]] [[0]] (some [2, 4]) none
    ∧ searchBruteForce [[0], [1]] [[0]] 4 = [[0, 1]]
    ∧ integralTransform TransformType.linear constOneKernel [[0], [1]] [[0]]
        [[0, 1]] (some [2, 4]) (some [1, 1]) = [6]
    ∧ integralTransform TransformType.linear constOneKernel [[0], [1]] [[0]]
        [[0, 1]] (some [2, 4]) none = [3]
    ∧ ([6] : List ℚ) ≠ [3] := by
  refine ⟨rfl, by decide, ?_, ?_, by norm_num⟩
  · simp [integralTransform, kernelEval, effectiveTransformType, edgeWeight,
      constOneKernel, List.range_succ, List.getD]
    norm_num
  · simp [integralTransform, kernelEval, effectiveTransformType, edgeWeight,
      constOneKernel, List.range_succ, List.getD]
    norm_num

/-- C7: the domain-padding round trip is exact: for every grid line, every
configured padding fraction and both padding modes, unpadding the padded
grid recovers exactly the pre-pad extent and values. -/
theorem domain_padding_roundtrip (m : PadMode) (frac : ℚ) (x : List ℚ) :
    unpadDomain m (paddingAmount frac x.length)
      (padDomain m (paddingAmount frac x.length) x) = x := by
  generalize paddingAmount frac x.length = p
  cases m with
  | oneSided =>
    show (x ++ List.replicate p 0).take ((x ++ List.replicate p 0).length - p) = x
    rw [List.length_append, List.length_replicate, Nat.add_sub_cancel]
    exact List.take_left x _
  | symmetric =>
    show ((List.replicate p 0 ++ x ++ List.replicate p 0).drop p).take
        ((List.replicate p 0 ++ x ++ List.replicate p 0).length - 2 * p) = x
    have hlen : (List.replicate p (0 : ℚ) ++ x ++ List.replicate p 0).length - 2 * p
        = x.length := by
      simp only [List.length_append, List.length_replicate]
      omega
    rw [hlen, List.append_assoc, List.drop_left' (List.length_replicate p 0)]
    exact List.take_left x _

theorem applyIncreases_bounds (incs : List Nat) (s : IncrementalModes)
    (hc : s.current ≤ s.maxModes) :
    s.current ≤ (applyIncreases s incs).current
    ∧ (applyIncreases s incs).current ≤ (applyIncreases s incs).maxModes
    ∧ (applyIncreases s incs).maxModes = s.maxModes := by
  induction incs generalizing s with
  | nil => exact ⟨Nat.le_refl _, hc, rfl⟩
  | cons inc incs ih =>
    have h1 : (increaseModes s inc).current ≤ (increaseModes s inc).maxModes :=
      Nat.min_le_right _ _
    obtain ⟨a, b, c⟩ := ih (increaseModes s inc) h1
    simp only [applyIncreases, List.foldl_cons] at *
    exact ⟨Nat.le_trans (Nat.le_min.mpr ⟨Nat.le_add_right _ _, hc⟩) a, b, c⟩

theorem spectralApply_set_inactive (cur : Nat) (w xhat : List ℚ) (m : Nat) (t : ℚ)
    (hm : cur ≤ m) : spectralApply cur (w.set m t) xhat = spectralApply cur w xhat := by
  unfold spectralApply
  apply List.map_congr_left
  intro i _
  by_cases hi : i < cur
  · have hne : m ≠ i := by omega
    rw [if_pos hi, if_pos hi]
    congr 1
    rw [List.getD_eq_getElem?_getD, List.getD_eq_getElem?_getD,
      List.getElem?_set_ne hne]
  · rw [if_neg hi, if_neg hi]

/-- C6: the retained-mode count is monotonically non-decreasing over any
sequence of increase operations and clamped at the configured maximum;
increasing at the maximum leaves the count unchanged; and the spectral
forward pass is independent of weight entries beyond the active count, so
their gradient is exactly zero. -/
theorem incremental_modes_invariants (s : IncrementalModes) (incs : List Nat)
    (hc : s.current ≤ s.maxModes) : IncrementalModesSpec s incs := by
  obtain ⟨a, b, c⟩ := applyIncreases_bounds incs s hc
  rw [c] at b
  refine ⟨a, b, ?_, ?_⟩
  · intro inc hmax
    simp only [increaseModes, hmax]
    exact Nat.min_eq_right (Nat.le_add_right _ _)
  · intro cur w xhat m t hm
    exact spectralApply_set_inactive cur w xhat m t hm

/-- C6 witness: the property at a concrete state with maximum 16 modes,
2 active, and a schedule overshooting the maximum. -/
theorem incremental_modes_invariants_witness :
    (IncrementalModes.mk 16 2).current ≤ (IncrementalModes.mk 16 2).maxModes
    ∧ IncrementalModesSpec (IncrementalModes.mk 16 2) [4, 100] :=
  ⟨by decide, incremental_modes_invariants (IncrementalModes.mk 16 2) [4, 100] (by decide)⟩

/-- C8 counterexample: in an ada_in-normalized FNOGNO, a first forward call
supplying ada_in = 5 changes the output of a later call made with
ada_in = None on identical inputs (6 instead of 1): the embedding stored on
the shared blocks persists, so forward is not a pure function of its
explicit inputs and parameters. -/
theorem fnogno_forward_history_sensitive :
    (fnognoForwardAda (fnognoForwardAda ⟨none⟩ 1 (some 5)).2 1 none).1 ≠
      (fnognoForwardAda ⟨none⟩ 1 none).1 := by
  norm_num [fnognoForwardAda, latentEmbeddingAda, updateAdaIn, fnoBlocksApply]

/-- C8 amended: FNOGNO.forward is a pure function of its explicit inputs,
its parameters and the ada-in embedding stored on the shared FNO blocks:
calls agreeing on inputs and stored embedding agree on output and final
state; and a call that supplies ada_in overwrites the stored embedding, so
such a call is insensitive to any prior history. -/
theorem fnogno_forward_pure_given_state (st st' : FnoBlocksState) (f : ℚ)
    (ada? : Option ℚ) (h : st.adaEmbed = st'.adaEmbed) :
    fnognoForwardAda st f ada? = fnognoForwardAda st' f ada?
    ∧ ∀ (s1 s2 : FnoBlocksState) (a : ℚ),
        fnognoForwardAda s1 f (some a) = fnognoForwardAda s2 f (some a) := by
  have hst : st = st' := by
    cases st
    cases st'
    simp only at h
    rw [h]
  exact ⟨by rw [hst], fun s1 s2 a => rfl⟩

/-- C8 amended witness: the amended property at a concrete stored state. -/
theorem fnogno_forward_pure_given_state_witness :
    (FnoBlocksState.mk (some 2)).adaEmbed = (FnoBlocksState.mk (some 2)).adaEmbed
    ∧ (fnognoForwardAda ⟨some 2⟩ 1 none = fnognoForwardAda ⟨some 2⟩ 1 none
       ∧ ∀ (s1 s2 : FnoBlocksState) (a : ℚ),
           fnognoForwardAda s1 1 (some a) = fnognoForwardAda s2 1 (some a)) :=
  ⟨rfl, fnogno_forward_pure_given_state ⟨some 2⟩ ⟨some 2⟩ 1 none rfl⟩

theorem vadd_comm (a b : List ℚ) : vadd a b = vadd b a :=
  List.zipWith_comm_of_comm _ (fun x y => add_comm x y) a b

theorem vadd_assoc' (a b c : List ℚ) : vadd (vadd a b) c = vadd a (vadd b c) := by
  induction a generalizing b c with
  | nil => rfl
  | cons x a ih =>
    cases b with
    | nil => rfl
    | cons y b =>
      cases c with
      | nil => rfl
      | cons z c =>
        show (x + y + z) :: vadd (vadd a b) c = (x + (y + z)) :: vadd a (vadd b c)
        rw [add_assoc, ih]

theorem vadd_vzeros (a : List ℚ) : vadd a (vzeros a.length) = a := by
  induction a with
  | nil => rfl
  | cons x a ih =>
    show (x + 0) :: vadd a (List.replicate a.length 0) = x :: a
    rw [add_zero]
    congr 1

theorem vscale_zero (a : List ℚ) : vscale 0 a = vzeros a.length := by
  induction a with
  | nil => rfl
  | cons x a ih =>
    show (0 * x) :: vscale 0 a = List.replicate (a.length + 1) 0
    rw [zero_mul, List.replicate_succ]
    congr 1

theorem vscale_one (a : List ℚ) : vscale 1 a = a := by
  induction a with
  | nil => rfl
  | cons x a ih =>
    show (1 * x) :: vscale 1 a = x :: a
    rw [one_mul, ih]

theorem vscale_vadd (c : ℚ) (a b : List ℚ) :
    vscale c (vadd a b) = vadd (vscale c a) (vscale c b) := by
  induction a generalizing b with
  | nil => rfl
  | cons x a ih =>
    cases b with
    | nil => rfl
    | cons y b =>
      show (c * (x + y)) :: vscale c (vadd a b) = (c * x + c * y) :: vadd (vscale c a) (vscale c b)
      rw [mul_add, ih]

theorem vsum_length (d : Nat) (l : List (List ℚ)) (hv : ∀ v ∈ l, v.length = d) :
    (vsum d l).length = d := by
  induction l with
  | nil => simp [vsum, vzeros]
  | cons a l ih =>
    have ha : a.length = d := hv a (List.mem_cons_self a l)
    have hl : (vsum d l).length = d := ih (fun v hm => hv v (List.mem_cons_of_mem a hm))
    show (vadd a (vsum d l)).length = d
    rw [vadd, List.length_zipWith, ha, hl, Nat.min_self]

theorem vsum_set_vadd (d : Nat) (l : List (List ℚ)) (k : Nat) (δ : List ℚ)
    (hk : k < l.length) :
    vsum d (l.set k (vadd (l.getD k []) δ)) = vadd (vsum d l) δ := by
  induction l generalizing k with
  | nil => exact absurd hk (by simp)
  | cons a l ih =>
    cases k with
    | zero =>
      show vadd (vadd a δ) (vsum d l) = vadd (vadd a (vsum d l)) δ
      rw [vadd_assoc', vadd_comm δ (vsum d l), ← vadd_assoc']
    | succ k =>
      have hk' : k < l.length := by simpa using hk
      show vadd a (vsum d (l.set k (vadd (l.getD k []) δ))) = vadd (vadd a (vsum d l)) δ
      rw [ih k hk', ← vadd_assoc']

theorem mem_of_mem_sliceVals {values : List (List ℚ)} {s e : Nat} {v : List ℚ}
    (h : v ∈ sliceVals values s e) : v ∈ values :=
  List.mem_of_mem_drop (List.mem_of_mem_take h)

theorem reduceSlice_length (op : ReduceOp) (d : Nat) (seg : List (List ℚ))
    (hv : ∀ v ∈ seg, v.length = d) : (reduceSlice op d seg).length = d := by
  cases op with
  | opSum => exact vsum_length d seg hv
  | opMean =>
    by_cases h : seg.length = 0
    · simp [reduceSlice, h, vzeros]
    · simp [reduceSlice, h, vscale, vsum_length d seg hv]

theorem reduceSlice_nil (op : ReduceOp) (d : Nat) : reduceSlice op d [] = vzeros d := by
  cases op <;> simp [reduceSlice, vsum]

theorem sliceVals_of_le (values : List (List ℚ)) (s e : Nat) (h : e ≤ s) :
    sliceVals values s e = [] := by
  rw [sliceVals, Nat.sub_eq_zero_of_le h, List.take_zero]

theorem sliceVals_set_outside (values : List (List ℚ)) (idx : Nat) (v : List ℚ)
    (s e : Nat) (h : idx < s ∨ e ≤ idx) :
    sliceVals (values.set idx v) s e = sliceVals values s e := by
  unfold sliceVals
  rw [List.drop_set]
  by_cases hlt : idx < s
  · rw [if_pos hlt]
  · rw [if_neg hlt, List.set_take]
    apply List.set_eq_of_length_le
    rw [List.length_take]
    rcases h with h | h
    · exact absurd h hlt
    · exact Nat.le_trans (Nat.min_le_left _ _) (Nat.sub_le_sub_right h s)

theorem sliceVals_set_inside (values : List (List ℚ)) (idx : Nat) (v : List ℚ)
    (s e : Nat) (hs : s ≤ idx) (he : idx < e) :
    sliceVals (values.set idx v) s e = (sliceVals values s e).set (idx - s) v := by
  unfold sliceVals
  rw [List.drop_set, if_neg (by omega), List.set_take]

theorem sliceVals_getD_inside (values : List (List ℚ)) (s e idx : Nat)
    (hs : s ≤ idx) (he : idx < e) :
    (sliceVals values s e).getD (idx - s) [] = values.getD idx [] := by
  rw [List.getD_eq_getElem?_getD, List.getD_eq_getElem?_getD]
  congr 1
  unfold sliceVals
  rw [List.getElem?_take_of_lt (by omega), List.getElem?_drop]
  congr 1
  omega

theorem reduceSlice_set_grad (op : ReduceOp) (d : Nat) (values : List (List ℚ))
    (idx : Nat) (δ : List ℚ) (s e : Nat)
    (hv : ∀ v ∈ values, v.length = d) (hδ : δ.length = d)
    (hidx : idx < values.length) :
    reduceSlice op d (sliceVals (values.set idx (vadd (values.getD idx []) δ)) s e) =
      vadd (reduceSlice op d (sliceVals values s e))
        (vscale (gradCoeff op values s e idx) δ) := by
  have hvslice : ∀ v ∈ sliceVals values s e, v.length = d :=
    fun v hm => hv v (mem_of_mem_sliceVals hm)
  by_cases hc : s ≤ idx ∧ idx < e
  · obtain ⟨hs, he⟩ := hc
    have hset : sliceVals (values.set idx (vadd (values.getD idx []) δ)) s e =
        (sliceVals values s e).set (idx - s)
          (vadd ((sliceVals values s e).getD (idx - s) []) δ) := by
      rw [sliceVals_set_inside values idx _ s e hs he,
        sliceVals_getD_inside values s e idx hs he]
    have hpos : idx - s < (sliceVals values s e).length := by
      unfold sliceVals
      rw [List.length_take, List.length_drop]
      omega
    cases op with
    | opSum =>
      have hcoeff : gradCoeff ReduceOp.opSum values s e idx = 1 := by
        unfold gradCoeff
        rw [if_pos ⟨hs, he, hidx⟩]
      rw [hset, hcoeff, vscale_one]
      exact vsum_set_vadd d _ _ _ hpos
    | opMean =>
      have hcoeff : gradCoeff ReduceOp.opMean values s e idx =
          1 / ((sliceVals values s e).length : ℚ) := by
        unfold gradCoeff
        rw [if_pos ⟨hs, he, hidx⟩]
      have hne : ¬ (sliceVals values s e).length = 0 := by omega
      rw [hset, hcoeff]
      show (if ((sliceVals values s e).set (idx - s) _).length = 0 then vzeros d
          else vscale (1 / (((sliceVals values s e).set (idx - s) _).length : ℚ))
            (vsum d ((sliceVals values s e).set (idx - s) _)))
        = _
      rw [List.length_set, if_neg hne, vsum_set_vadd d _ _ _ hpos, vscale_vadd]
      show _ = vadd (if (sliceVals values s e).length = 0 then vzeros d
          else vscale (1 / ((sliceVals values s e).length : ℚ)) (vsum d (sliceVals values s e)))
        (vscale (1 / ((sliceVals values s e).length : ℚ)) δ)
      rw [if_neg hne]
  · have hout : idx < s ∨ e ≤ idx := by omega
    rw [sliceVals_set_outside values idx _ s e hout]
    have hcoeff : gradCoeff op values s e idx = 0 := by
      unfold gradCoeff
      rw [if_neg (fun hq => hc ⟨hq.1, hq.2.1⟩)]
    rw [hcoeff, vscale_zero, hδ]
    have hR := vadd_vzeros (reduceSlice op d (sliceVals values s e))
    rw [reduceSlice_length op d _ hvslice] at hR
    exact hR.symm

theorem segment_csr_length (op : ReduceOp) (d : Nat) (values : List (List ℚ))
    (ptr : List Nat) : (segment_csr op d values ptr).length = ptr.length - 1 := by
  unfold segment_csr
  rw [List.length_map, List.length_zip, List.length_tail]
  exact Nat.min_eq_right (Nat.sub_le _ _)

theorem segment_csr_getElem? (op : ReduceOp) (d : Nat) (values : List (List ℚ))
    (ptr : List Nat) (i s e : Nat)
    (h1 : ptr[i]? = some s) (h2 : ptr[i + 1]? = some e) :
    (segment_csr op d values ptr)[i]? =
      some (reduceSlice op d (sliceVals values s e)) := by
  unfold segment_csr
  rw [List.getElem?_map]
  have hz : (ptr.zip ptr.tail)[i]? = some (s, e) := by
    rw [List.getElem?_zip_eq_some]
    exact ⟨h1, by rw [List.getElem?_tail]; exact h2⟩
  rw [hz]
  rfl

/-- C2: the segmented reduction returns one entry per query; entry i reduces
values[ptr[i] : ptr[i+1]] by the chosen operation; an empty range reduces to
the zero vector for sum and to zero, not NaN, for mean; and under
reverse-mode differentiation the gradient of an output entry with respect
to a contributing edge is exactly 1 for sum and 1/count for mean, and
exactly 0 with respect to a non-contributing edge, expressed as the exact
first-order response to a perturbation of one edge vector. -/
theorem segment_csr_spec (op : ReduceOp) (d : Nat) (values : List (List ℚ))
    (ptr : List Nat) (hv : ∀ v ∈ values, v.length = d) :
    SegmentCsrSpec op d values ptr := by
  refine ⟨segment_csr_length op d values ptr, ?_, ?_, ?_⟩
  · intro i s e h1 h2
    exact segment_csr_getElem? op d values ptr i s e h1 h2
  · intro i s e h1 h2 hse
    rw [segment_csr_getElem? op d values ptr i s e h1 h2,
      sliceVals_of_le values s e hse, reduceSlice_nil]
  · intro idx δ hidx hδ i s e h1 h2
    rw [segment_csr_getElem? op d _ ptr i s e h1 h2,
      reduceSlice_set_grad op d values idx δ s e hv hδ hidx]

/-- C2 witness: the property evaluated for mean reduction on three
two-channel edge vectors with an empty, a singleton and a length-two
segment. -/
theorem segment_csr_spec_witness :
    (∀ v ∈ [[(1 : ℚ), 2], [3, 4], [5, 6]], v.length = 2)
    ∧ SegmentCsrSpec ReduceOp.opMean 2 [[(1 : ℚ), 2], [3, 4], [5, 6]] [0, 1, 1, 3] :=
  ⟨by intro v hm; simp at hm; rcases hm with rfl | rfl | rfl <;> rfl,
   segment_csr_spec ReduceOp.opMean 2 [[(1 : ℚ), 2], [3, 4], [5, 6]] [0, 1, 1, 3]
     (by intro v hm; simp at hm; rcases hm with rfl | rfl | rfl <;> rfl)⟩
